import Mathlib

/-!
Verification of the interrupt-driven UART console core of RTT_helloworld
(src/USER/console.c), shallowly embedded in Lean 4.

The embedded state mirrors struct rt_ringbuffer: a backing byte array
(buffer_ptr, modelled as a list of bytes), two 15-bit indices
(read_index, write_index), two one-bit mirror flags (read_mirror,
write_mirror) and the signed 16-bit buffer_size.  Bytes are Nat values;
the 15-bit width of the index bit-fields shows up as reduction mod 2 ^ 15
on increment, and comparisons against buffer_size - 1 are performed on Int
exactly as C's integer promotion does.
-/

namespace Console

/-- Embedded struct rt_ringbuffer (console.c lines 28-38).  The C bit-fields
read_mirror:1 / write_mirror:1 become Bool, the 15-bit indices become Nat
(kept below 2 ^ 15 by the same wrap arithmetic the bit-field performs), and
the backing storage the buffer_ptr points into is carried as a list. -/
structure rt_ringbuffer where
  buffer_ptr : List Nat
  read_mirror : Bool
  read_index : Nat
  write_mirror : Bool
  write_index : Nat
  buffer_size : Nat
deriving DecidableEq, Repr

/-- enum rt_ringbuffer_state (console.c lines 40-46). -/
inductive rt_ringbuffer_state where
  | RT_RINGBUFFER_EMPTY
  | RT_RINGBUFFER_FULL
  | RT_RINGBUFFER_HALFFULL
deriving DecidableEq, Repr

/-- rt_ringbuffer_status (console.c lines 63-73): equal indices with equal
mirrors is empty, equal indices with differing mirrors is full, anything
else is half full. -/
def rt_ringbuffer_status (rb : rt_ringbuffer) : rt_ringbuffer_state :=
  if rb.read_index = rb.write_index then
    if rb.read_mirror = rb.write_mirror then
      rt_ringbuffer_state.RT_RINGBUFFER_EMPTY
    else
      rt_ringbuffer_state.RT_RINGBUFFER_FULL
  else
    rt_ringbuffer_state.RT_RINGBUFFER_HALFFULL

/-- rt_ringbuffer_data_len (console.c lines 82-97). -/
def rt_ringbuffer_data_len (rb : rt_ringbuffer) : Nat :=
  match rt_ringbuffer_status rb with
  | rt_ringbuffer_state.RT_RINGBUFFER_EMPTY => 0
  | rt_ringbuffer_state.RT_RINGBUFFER_FULL => rb.buffer_size
  | rt_ringbuffer_state.RT_RINGBUFFER_HALFFULL =>
    if rb.read_index < rb.write_index then
      rb.write_index - rb.read_index
    else
      rb.buffer_size - (rb.read_index - rb.write_index)

/-- Macro rt_ringbuffer_space_len (console.c line 25). -/
def rt_ringbuffer_space_len (rb : rt_ringbuffer) : Nat :=
  rb.buffer_size - rt_ringbuffer_data_len rb

/-- RT_ALIGN_SIZE: the kernel alignment unit configured in rtconfig.h for
this Cortex-M3 target (RT-Thread's standard value 4). -/
def RT_ALIGN_SIZE : Nat := 4

/-- RT_ALIGN_DOWN(size, align) from rtdef.h: rounds size down to a multiple
of the power-of-two align. -/
def RT_ALIGN_DOWN (size align : Nat) : Nat := size / align * align

/-- rt_ringbuffer_init (console.c lines 106-120).  RT_ASSERT(size > 0)
halts on violation, modelled as Option.none; otherwise both indices and
both mirrors are zeroed, the pool is installed and buffer_size is set to
RT_ALIGN_DOWN(size, RT_ALIGN_SIZE). -/
def rt_ringbuffer_init (pool : List Nat) (size : Int) : Option rt_ringbuffer :=
  if 0 < size then
    some { buffer_ptr := pool
           read_mirror := false
           read_index := 0
           write_mirror := false
           write_index := 0
           buffer_size := RT_ALIGN_DOWN size.toNat RT_ALIGN_SIZE }
  else
    none

/-- rt_ringbuffer_putchar (console.c lines 129-151).  Returns the new state
and the rt_size_t return value (0 on full, 1 on success).  The mirror flip
~mirror on a one-bit field is Boolean negation; the index comparison
against buffer_size - 1 happens on Int as in C; the bit-field increment of
the 15-bit write_index reduces mod 2 ^ 15. -/
def rt_ringbuffer_putchar (rb : rt_ringbuffer) (ch : Nat) : rt_ringbuffer × Nat :=
  if rt_ringbuffer_space_len rb = 0 then
    (rb, 0)
  else
    let rb1 := { rb with buffer_ptr := rb.buffer_ptr.set rb.write_index ch }
    if (rb.write_index : Int) = (rb.buffer_size : Int) - 1 then
      ({ rb1 with write_mirror := !rb1.write_mirror, write_index := 0 }, 1)
    else
      ({ rb1 with write_index := (rb1.write_index + 1) % 2 ^ 15 }, 1)

/-- rt_ringbuffer_getchar (console.c lines 160-182).  The caller passes the
current value behind the ch out-pointer; the result is the new state, the
value behind the out-pointer on return, and the rt_size_t return value
(0 on empty, 1 on success). -/
def rt_ringbuffer_getchar (rb : rt_ringbuffer) (ch : Nat) :
    rt_ringbuffer × Nat × Nat :=
  if rt_ringbuffer_data_len rb = 0 then
    (rb, ch, 0)
  else
    let newch := rb.buffer_ptr.getD rb.read_index 0
    if (rb.read_index : Int) = (rb.buffer_size : Int) - 1 then
      ({ rb with read_mirror := !rb.read_mirror, read_index := 0 }, newch, 1)
    else
      ({ rb with read_index := (rb.read_index + 1) % 2 ^ 15 }, newch, 1)

/-- Well-formedness of a buffer state: positive capacity within the
rt_int16_t range, indices inside the storage, storage at least as long as
the capacity, and the mirror/index ordering the mirror-bit discipline
maintains (equal mirrors means the write index is ahead of or equal to the
read index, differing mirrors means it is behind or equal). -/
def rbWF (rb : rt_ringbuffer) : Prop :=
  0 < rb.buffer_size ∧
  rb.buffer_size ≤ 32767 ∧
  rb.read_index < rb.buffer_size ∧
  rb.write_index < rb.buffer_size ∧
  rb.buffer_size ≤ rb.buffer_ptr.length ∧
  (rb.read_mirror = rb.write_mirror → rb.read_index ≤ rb.write_index) ∧
  (rb.read_mirror ≠ rb.write_mirror → rb.write_index ≤ rb.read_index)

instance (rb : rt_ringbuffer) : Decidable (rbWF rb) := by
  unfold rbWF; infer_instance

/-- Abstraction of a buffer state to the byte queue it holds: the
rt_ringbuffer_data_len bytes starting at read_index, read circularly. -/
def rbModel (rb : rt_ringbuffer) : List Nat :=
  (List.range (rt_ringbuffer_data_len rb)).map
    (fun i => rb.buffer_ptr.getD ((rb.read_index + i) % rb.buffer_size) 0)

/-- The receive drain loop inside USART1_IRQHandler (console.c lines
314-327): while the RXNE flag reports a byte pending, read DR, mask with
0xff and rt_ringbuffer_putchar it, ignoring the return value.  The
hardware is abstracted as the list of data-register values still pending. -/
def uart_rx_drain : rt_ringbuffer → List Nat → rt_ringbuffer
  | rb, [] => rb
  | rb, dr :: rest => uart_rx_drain (rt_ringbuffer_putchar rb (dr % 256)).1 rest

/-- USART1_IRQHandler (console.c lines 304-334) over the abstracted
hardware: rxne_pending is the guard (RXNE flag set and the RXNE interrupt
source enabled), pending the data-register values the hardware will
deliver.  When the guard holds, the handler drains every pending byte into
the ring buffer and then performs one rt_sem_release, which increments the
semaphore count; otherwise it leaves both untouched. -/
def USART1_IRQHandler (rb : rt_ringbuffer) (sem : Nat) (rxne_pending : Bool)
    (pending : List Nat) : rt_ringbuffer × Nat :=
  if rxne_pending then
    (uart_rx_drain rb pending, sem + 1)
  else
    (rb, sem)

/-- The loop of rt_hw_console_getchar (console.c lines 264-274) with no
producer activity.  Each iteration calls rt_ringbuffer_getchar on a local
char initialised to 0 and returns it on success; otherwise it calls
rt_sem_take(&shell_rx_sem, RT_WAITING_FOREVER), whose return value the
source discards.  With nothing ever releasing the semaphore, a take on a
zero count never returns, so the iteration yields no result; a take on a
positive count decrements it and the loop retries.  The fuel argument
bounds how many iterations are observed: none means the call has not
returned within that many iterations. -/
def rt_hw_console_getchar_loop : Nat → rt_ringbuffer → Nat →
    Option (Nat × rt_ringbuffer × Nat)
  | 0, _, _ => none
  | fuel + 1, rb, sem =>
    let g := rt_ringbuffer_getchar rb 0
    if g.2.2 = 1 then
      some (g.2.1, g.1, sem)
    else if 0 < sem then
      rt_hw_console_getchar_loop fuel g.1 (sem - 1)
    else
      none

/-- One consumer- or producer-side call on the buffer, used to describe
states reachable from initialisation by any sequence of the two console.c
operations. -/
inductive RbOp where
  | put (ch : Nat)
  | get
deriving DecidableEq, Repr

/-- Apply one operation, keeping only the buffer state (the caller of
rt_ringbuffer_getchar in console.c passes a char initialised to 0). -/
def rb_apply_op (rb : rt_ringbuffer) : RbOp → rt_ringbuffer
  | RbOp.put ch => (rt_ringbuffer_putchar rb ch).1
  | RbOp.get => (rt_ringbuffer_getchar rb 0).1

/-- Apply a sequence of operations left to right. -/
def rb_apply_ops (rb : rt_ringbuffer) (ops : List RbOp) : rt_ringbuffer :=
  ops.foldl rb_apply_op rb

/-- Successive rt_ringbuffer_putchar calls, keeping the final state. -/
def rb_put_run (rb : rt_ringbuffer) (l : List Nat) : rt_ringbuffer :=
  l.foldl (fun b ch => (rt_ringbuffer_putchar b ch).1) rb

/-- Successive rt_ringbuffer_putchar calls, keeping the final state and
the list of return values in call order. -/
def rb_put_run_rets : rt_ringbuffer → List Nat → rt_ringbuffer × List Nat
  | rb, [] => (rb, [])
  | rb, ch :: rest =>
    let p := rt_ringbuffer_putchar rb ch
    let q := rb_put_run_rets p.1 rest
    (q.1, p.2 :: q.2)

/-- n successive rt_ringbuffer_getchar calls, collecting the bytes
delivered; the run stops early if a call reports empty. -/
def rb_get_run : Nat → rt_ringbuffer → rt_ringbuffer × List Nat
  | 0, rb => (rb, [])
  | n + 1, rb =>
    let g := rt_ringbuffer_getchar rb 0
    if g.2.2 = 1 then
      let rest := rb_get_run n g.1
      (rest.1, g.2.1 :: rest.2)
    else
      (rb, [])

/-! Basic lemmas about the embedded operations. -/

/-- Under well-formedness the three-way status case split collapses to a
closed form for the occupied count. -/
theorem rbWF_dlen (rb : rt_ringbuffer) (h : rbWF rb) :
    rt_ringbuffer_data_len rb =
      if rb.read_mirror = rb.write_mirror then
        rb.write_index - rb.read_index
      else
        rb.buffer_size - (rb.read_index - rb.write_index) := by
  obtain ⟨h1, h2, h3, h4, h5, h6, h7⟩ := h
  by_cases hrw : rb.read_index = rb.write_index
  · by_cases hm : rb.read_mirror = rb.write_mirror
    · simp [rt_ringbuffer_data_len, rt_ringbuffer_status, hrw, hm]
    · simp [rt_ringbuffer_data_len, rt_ringbuffer_status, hrw, hm]
  · by_cases hm : rb.read_mirror = rb.write_mirror
    · have hlt : rb.read_index < rb.write_index := lt_of_le_of_ne (h6 hm) hrw
      simp [rt_ringbuffer_data_len, rt_ringbuffer_status, hrw, hm, hlt]
    · have hle : rb.write_index ≤ rb.read_index := h7 hm
      have hnlt : ¬ rb.read_index < rb.write_index := by omega
      simp [rt_ringbuffer_data_len, rt_ringbuffer_status, hrw, hm, hnlt]

/-- The occupied count never exceeds the capacity once the write index is
inside the storage. -/
theorem dlen_le_size (rb : rt_ringbuffer) (h4 : rb.write_index < rb.buffer_size) :
    rt_ringbuffer_data_len rb ≤ rb.buffer_size := by
  by_cases hrw : rb.read_index = rb.write_index
  · by_cases hm : rb.read_mirror = rb.write_mirror
    · simp [rt_ringbuffer_data_len, rt_ringbuffer_status, hrw, hm]
    · simp [rt_ringbuffer_data_len, rt_ringbuffer_status, hrw, hm]
  · by_cases hlt : rb.read_index < rb.write_index
    · simp only [rt_ringbuffer_data_len, rt_ringbuffer_status, if_neg hrw, if_pos hlt]
      omega
    · simp only [rt_ringbuffer_data_len, rt_ringbuffer_status, if_neg hrw, if_neg hlt]
      omega

/-- put on a full buffer is a no-op that returns 0; this needs no
well-formedness because space_len is literally zero there. -/
theorem putchar_full (rb : rt_ringbuffer) (ch : Nat)
    (h : rt_ringbuffer_data_len rb = rb.buffer_size) :
    rt_ringbuffer_putchar rb ch = (rb, 0) := by
  unfold rt_ringbuffer_putchar rt_ringbuffer_space_len
  rw [h]
  simp

/-- get on an empty buffer is a no-op that returns 0 and does not touch
the out parameter. -/
theorem getchar_empty (rb : rt_ringbuffer) (ch : Nat)
    (h : rt_ringbuffer_data_len rb = 0) :
    rt_ringbuffer_getchar rb ch = (rb, ch, 0) := by
  unfold rt_ringbuffer_getchar
  rw [h]
  simp

/-- Closed form of a successful put: the byte lands at the old write
index, and the index advances with the wrap/mirror-flip rule. -/
theorem putchar_ok (rb : rt_ringbuffer) (ch : Nat) (h : rbWF rb)
    (hd : rt_ringbuffer_data_len rb < rb.buffer_size) :
    rt_ringbuffer_putchar rb ch =
      ({ rb with
          buffer_ptr := rb.buffer_ptr.set rb.write_index ch
          write_mirror :=
            if rb.write_index = rb.buffer_size - 1 then !rb.write_mirror
            else rb.write_mirror
          write_index :=
            if rb.write_index = rb.buffer_size - 1 then 0
            else rb.write_index + 1 }, 1) := by
  obtain ⟨h1, h2, h3, h4, h5, h6, h7⟩ := h
  have hsp : ¬ rt_ringbuffer_space_len rb = 0 := by
    unfold rt_ringbuffer_space_len
    omega
  unfold rt_ringbuffer_putchar
  rw [if_neg hsp]
  by_cases hw : rb.write_index = rb.buffer_size - 1
  · have hwi : (rb.write_index : Int) = (rb.buffer_size : Int) - 1 := by omega
    rw [if_pos hwi, if_pos hw, if_pos hw]
  · have hwi : ¬ (rb.write_index : Int) = (rb.buffer_size : Int) - 1 := by omega
    have hmod : (rb.write_index + 1) % 2 ^ 15 = rb.write_index + 1 :=
      Nat.mod_eq_of_lt (by omega)
    rw [if_neg hwi, if_neg hw, if_neg hw, hmod]

/-- Closed form of a successful get: the byte at the old read index is
delivered, and the index advances with the wrap/mirror-flip rule. -/
theorem getchar_ok (rb : rt_ringbuffer) (ch : Nat) (h : rbWF rb)
    (hd : 0 < rt_ringbuffer_data_len rb) :
    rt_ringbuffer_getchar rb ch =
      ({ rb with
          read_mirror :=
            if rb.read_index = rb.buffer_size - 1 then !rb.read_mirror
            else rb.read_mirror
          read_index :=
            if rb.read_index = rb.buffer_size - 1 then 0
            else rb.read_index + 1 },
       rb.buffer_ptr.getD rb.read_index 0, 1) := by
  obtain ⟨h1, h2, h3, h4, h5, h6, h7⟩ := h
  have hne : ¬ rt_ringbuffer_data_len rb = 0 := by omega
  unfold rt_ringbuffer_getchar
  rw [if_neg hne]
  by_cases hr : rb.read_index = rb.buffer_size - 1
  · have hri : (rb.read_index : Int) = (rb.buffer_size : Int) - 1 := by omega
    rw [if_pos hri, if_pos hr, if_pos hr]
  · have hri : ¬ (rb.read_index : Int) = (rb.buffer_size : Int) - 1 := by omega
    have hmod : (rb.read_index + 1) % 2 ^ 15 = rb.read_index + 1 :=
      Nat.mod_eq_of_lt (by omega)
    rw [if_neg hri, if_neg hr, if_neg hr, hmod]

/-- A successful put preserves well-formedness. -/
theorem putchar_wf (rb : rt_ringbuffer) (ch : Nat) (h : rbWF rb)
    (hd : rt_ringbuffer_data_len rb < rb.buffer_size) :
    rbWF (rt_ringbuffer_putchar rb ch).1 := by
  have hdl := rbWF_dlen rb h
  simp only [rbWF, putchar_ok rb ch h hd]
  obtain ⟨h1, h2, h3, h4, h5, h6, h7⟩ := h
  by_cases hw : rb.write_index = rb.buffer_size - 1
  · simp only [if_pos hw]
    refine ⟨h1, h2, h3, h1, by simpa using h5, ?_, ?_⟩
    · intro hb
      exfalso
      have hm : rb.read_mirror ≠ rb.write_mirror := by
        cases hrm : rb.read_mirror <;> cases hwm : rb.write_mirror <;> simp_all
      rw [if_neg hm] at hdl
      have := h7 hm
      omega
    · intro _
      omega
  · simp only [if_neg hw]
    refine ⟨h1, h2, h3, by omega, by simpa using h5, ?_, ?_⟩
    · intro hb
      have := h6 hb
      omega
    · intro hb
      rw [if_neg hb] at hdl
      have := h7 hb
      omega

/-- A successful put increases the occupied count by exactly one. -/
theorem putchar_dlen (rb : rt_ringbuffer) (ch : Nat) (h : rbWF rb)
    (hd : rt_ringbuffer_data_len rb < rb.buffer_size) :
    rt_ringbuffer_data_len (rt_ringbuffer_putchar rb ch).1 =
      rt_ringbuffer_data_len rb + 1 := by
  have hdl := rbWF_dlen rb h
  have hwf2 := putchar_wf rb ch h hd
  have hdl2 := rbWF_dlen _ hwf2
  simp only [putchar_ok rb ch h hd] at hdl2 ⊢
  obtain ⟨h1, h2, h3, h4, h5, h6, h7⟩ := h
  by_cases hw : rb.write_index = rb.buffer_size - 1
  · simp only [if_pos hw] at hdl2 ⊢
    have hm : rb.read_mirror = rb.write_mirror := by
      by_contra hm
      rw [if_neg hm] at hdl
      have := h7 hm
      omega
    have hm2 : ¬ rb.read_mirror = !rb.write_mirror := by
      cases hrm : rb.read_mirror <;> cases hwm : rb.write_mirror <;> simp_all
    rw [if_neg hm2] at hdl2
    rw [if_pos hm] at hdl
    have := h6 hm
    omega
  · simp only [if_neg hw] at hdl2 ⊢
    by_cases hm : rb.read_mirror = rb.write_mirror
    · rw [if_pos hm] at hdl2 hdl
      have := h6 hm
      omega
    · rw [if_neg hm] at hdl2 hdl
      have := h7 hm
      omega

/-- A successful get preserves well-formedness. -/
theorem getchar_wf (rb : rt_ringbuffer) (ch : Nat) (h : rbWF rb)
    (hd : 0 < rt_ringbuffer_data_len rb) :
    rbWF (rt_ringbuffer_getchar rb ch).1 := by
  have hdl := rbWF_dlen rb h
  simp only [rbWF, getchar_ok rb ch h hd]
  obtain ⟨h1, h2, h3, h4, h5, h6, h7⟩ := h
  by_cases hr : rb.read_index = rb.buffer_size - 1
  · simp only [if_pos hr]
    refine ⟨h1, h2, h1, h4, h5, ?_, ?_⟩
    · intro _
      omega
    · intro hb
      exfalso
      have hm : rb.read_mirror = rb.write_mirror := by
        cases hrm : rb.read_mirror <;> cases hwm : rb.write_mirror <;> simp_all
      rw [if_pos hm] at hdl
      have := h6 hm
      omega
  · simp only [if_neg hr]
    refine ⟨h1, h2, by omega, h4, h5, ?_, ?_⟩
    · intro hb
      rw [if_pos hb] at hdl
      have := h6 hb
      omega
    · intro hb
      have := h7 hb
      omega

/-- A successful get decreases the occupied count by exactly one. -/
theorem getchar_dlen (rb : rt_ringbuffer) (ch : Nat) (h : rbWF rb)
    (hd : 0 < rt_ringbuffer_data_len rb) :
    rt_ringbuffer_data_len (rt_ringbuffer_getchar rb ch).1 =
      rt_ringbuffer_data_len rb - 1 := by
  have hdl := rbWF_dlen rb h
  have hwf2 := getchar_wf rb ch h hd
  have hdl2 := rbWF_dlen _ hwf2
  simp only [getchar_ok rb ch h hd] at hdl2 ⊢
  obtain ⟨h1, h2, h3, h4, h5, h6, h7⟩ := h
  by_cases hr : rb.read_index = rb.buffer_size - 1
  · simp only [if_pos hr] at hdl2 ⊢
    have hm : rb.read_mirror ≠ rb.write_mirror := by
      intro hmeq
      rw [if_pos hmeq] at hdl
      have := h6 hmeq
      omega
    have hm2 : (!rb.read_mirror) = rb.write_mirror := by
      cases hrm : rb.read_mirror <;> cases hwm : rb.write_mirror <;> simp_all
    rw [if_pos hm2] at hdl2
    rw [if_neg hm] at hdl
    have := h7 hm
    omega
  · simp only [if_neg hr] at hdl2 ⊢
    by_cases hm : rb.read_mirror = rb.write_mirror
    · rw [if_pos hm] at hdl2 hdl
      have := h6 hm
      omega
    · rw [if_neg hm] at hdl2 hdl
      have := h7 hm
      omega

/-- Reading back the position just written. -/
theorem getD_set_same (l : List Nat) (i a : Nat) (h : i < l.length) :
    (l.set i a).getD i 0 = a := by
  simp [List.getD_eq_getElem?_getD, List.getElem?_set_eq_of_lt a h]

/-- Writing one position leaves every other position unchanged. -/
theorem getD_set_other (l : List Nat) (i j a : Nat) (h : i ≠ j) :
    (l.set i a).getD j 0 = l.getD j 0 := by
  simp [List.getD_eq_getElem?_getD, List.getElem?_set_ne h]

/-- In a well-formed state the write index sits exactly
rt_ringbuffer_data_len positions (circularly) after the read index. -/
theorem write_index_eq (rb : rt_ringbuffer) (h : rbWF rb) :
    rb.write_index =
      (rb.read_index + rt_ringbuffer_data_len rb) % rb.buffer_size := by
  have hdl := rbWF_dlen rb h
  obtain ⟨h1, h2, h3, h4, h5, h6, h7⟩ := h
  by_cases hm : rb.read_mirror = rb.write_mirror
  · rw [if_pos hm] at hdl
    have := h6 hm
    rw [hdl]
    have hsum : rb.read_index + (rb.write_index - rb.read_index) =
        rb.write_index := by omega
    rw [hsum, Nat.mod_eq_of_lt h4]
  · rw [if_neg hm] at hdl
    have := h7 hm
    rw [hdl]
    have hsum :
        rb.read_index + (rb.buffer_size - (rb.read_index - rb.write_index)) =
          rb.buffer_size + rb.write_index := by omega
    rw [hsum, Nat.add_mod_left, Nat.mod_eq_of_lt h4]

/-- The length of the abstract queue is the occupied count. -/
theorem rbModel_length (rb : rt_ringbuffer) :
    (rbModel rb).length = rt_ringbuffer_data_len rb := by
  simp [rbModel]

/-- A successful put appends the byte to the abstract queue. -/
theorem putchar_model (rb : rt_ringbuffer) (ch : Nat) (h : rbWF rb)
    (hd : rt_ringbuffer_data_len rb < rb.buffer_size) :
    rbModel (rt_ringbuffer_putchar rb ch).1 = rbModel rb ++ [ch] := by
  have hwi := write_index_eq rb h
  have hdl2 := putchar_dlen rb ch h hd
  have hcf := putchar_ok rb ch h hd
  have hri : (rt_ringbuffer_putchar rb ch).1.read_index = rb.read_index := by
    rw [hcf]
  have hbs : (rt_ringbuffer_putchar rb ch).1.buffer_size = rb.buffer_size := by
    rw [hcf]
  have hbp : (rt_ringbuffer_putchar rb ch).1.buffer_ptr =
      rb.buffer_ptr.set rb.write_index ch := by
    rw [hcf]
  obtain ⟨h1, h2, h3, h4, h5, h6, h7⟩ := h
  unfold rbModel
  rw [hdl2, hri, hbs, hbp, List.range_succ, List.map_append]
  congr 1
  · apply List.map_congr_left
    intro i hi
    rw [List.mem_range] at hi
    apply getD_set_other
    rw [hwi]
    intro heq
    have hcan : rt_ringbuffer_data_len rb ≡ i [MOD rb.buffer_size] :=
      Nat.ModEq.add_left_cancel' rb.read_index heq
    have he1 : rt_ringbuffer_data_len rb % rb.buffer_size =
        rt_ringbuffer_data_len rb := Nat.mod_eq_of_lt hd
    have he2 : i % rb.buffer_size = i := Nat.mod_eq_of_lt (by omega)
    unfold Nat.ModEq at hcan
    omega
  · simp only [List.map_cons, List.map_nil]
    rw [← hwi]
    rw [getD_set_same _ _ _ (by omega)]

/-- The byte a successful get delivers is the one at the read index. -/
theorem getchar_val (rb : rt_ringbuffer) (ch : Nat) (h : rbWF rb)
    (hd : 0 < rt_ringbuffer_data_len rb) :
    (rt_ringbuffer_getchar rb ch).2.1 = rb.buffer_ptr.getD rb.read_index 0 := by
  rw [getchar_ok rb ch h hd]

/-- A successful get pops the head of the abstract queue. -/
theorem getchar_model (rb : rt_ringbuffer) (ch : Nat) (h : rbWF rb)
    (hd : 0 < rt_ringbuffer_data_len rb) :
    rbModel rb =
      rb.buffer_ptr.getD rb.read_index 0 ::
        rbModel (rt_ringbuffer_getchar rb ch).1 := by
  have hdl2 := getchar_dlen rb ch h hd
  have hcf := getchar_ok rb ch h hd
  have hbp : (rt_ringbuffer_getchar rb ch).1.buffer_ptr = rb.buffer_ptr := by
    rw [hcf]
  have hbs : (rt_ringbuffer_getchar rb ch).1.buffer_size = rb.buffer_size := by
    rw [hcf]
  have hr2 : (rt_ringbuffer_getchar rb ch).1.read_index =
      (rb.read_index + 1) % rb.buffer_size := by
    rw [hcf]
    obtain ⟨h1, h2, h3, h4, h5, h6, h7⟩ := h
    by_cases hr : rb.read_index = rb.buffer_size - 1
    · simp only [if_pos hr]
      have : rb.read_index + 1 = rb.buffer_size := by omega
      rw [this, Nat.mod_self]
    · simp only [if_neg hr]
      rw [Nat.mod_eq_of_lt (by omega)]
  obtain ⟨dm, hdm⟩ : ∃ dm, rt_ringbuffer_data_len rb = dm + 1 :=
    ⟨rt_ringbuffer_data_len rb - 1, by omega⟩
  obtain ⟨h1, h2, h3, h4, h5, h6, h7⟩ := h
  unfold rbModel
  rw [hdl2, hdm, hbp, hbs, hr2, List.range_succ_eq_map, List.map_cons,
    List.map_map]
  simp only [Nat.add_sub_cancel]
  congr 1
  · rw [Nat.add_zero, Nat.mod_eq_of_lt h3]
  · apply List.map_congr_left
    intro i hi
    simp only [Function.comp_apply]
    rw [Nat.mod_add_mod]
    have harg : rb.read_index + i.succ = rb.read_index + 1 + i := by omega
    rw [harg]

/-- put only ever touches the write-side fields and the storage; the
read-side fields, the capacity and the storage length are untouched on
every path, full or not. -/
theorem putchar_frame (rb : rt_ringbuffer) (ch : Nat) :
    (rt_ringbuffer_putchar rb ch).1.read_index = rb.read_index ∧
    (rt_ringbuffer_putchar rb ch).1.read_mirror = rb.read_mirror ∧
    (rt_ringbuffer_putchar rb ch).1.buffer_size = rb.buffer_size ∧
    (rt_ringbuffer_putchar rb ch).1.buffer_ptr.length =
      rb.buffer_ptr.length := by
  by_cases hs : rt_ringbuffer_space_len rb = 0 <;>
    by_cases hw : (rb.write_index : Int) = (rb.buffer_size : Int) - 1 <;>
      simp [rt_ringbuffer_putchar, hs, hw]

/-- put leaves every storage cell other than the one at the write index
unchanged, on every path. -/
theorem putchar_cells (rb : rt_ringbuffer) (ch i : Nat)
    (hi : i ≠ rb.write_index) :
    (rt_ringbuffer_putchar rb ch).1.buffer_ptr.getD i 0 =
      rb.buffer_ptr.getD i 0 := by
  have hcell := getD_set_other rb.buffer_ptr rb.write_index i ch (Ne.symm hi)
  by_cases hs : rt_ringbuffer_space_len rb = 0 <;>
    by_cases hw : (rb.write_index : Int) = (rb.buffer_size : Int) - 1 <;>
      simp [rt_ringbuffer_putchar, hs, hw] <;>
        simpa [List.getD_eq_getElem?_getD] using hcell

/-- get only ever touches the read-side fields; the write-side fields, the
capacity and the whole storage are untouched on every path. -/
theorem getchar_frame (rb : rt_ringbuffer) (ch : Nat) :
    (rt_ringbuffer_getchar rb ch).1.write_index = rb.write_index ∧
    (rt_ringbuffer_getchar rb ch).1.write_mirror = rb.write_mirror ∧
    (rt_ringbuffer_getchar rb ch).1.buffer_size = rb.buffer_size ∧
    (rt_ringbuffer_getchar rb ch).1.buffer_ptr = rb.buffer_ptr := by
  by_cases hs : rt_ringbuffer_data_len rb = 0 <;>
    by_cases hr : (rb.read_index : Int) = (rb.buffer_size : Int) - 1 <;>
      simp [rt_ringbuffer_getchar, hs, hr]

/-- A run of puts that fits in the remaining space succeeds throughout:
it preserves well-formedness and the capacity, raises the occupied count
by the number of bytes written, and appends the bytes to the abstract
queue in order. -/
theorem rb_put_run_spec (l : List Nat) (rb : rt_ringbuffer) (h : rbWF rb)
    (hl : rt_ringbuffer_data_len rb + l.length ≤ rb.buffer_size) :
    rbWF (rb_put_run rb l) ∧
    (rb_put_run rb l).buffer_size = rb.buffer_size ∧
    rt_ringbuffer_data_len (rb_put_run rb l) =
      rt_ringbuffer_data_len rb + l.length ∧
    rbModel (rb_put_run rb l) = rbModel rb ++ l := by
  induction l generalizing rb with
  | nil =>
    refine ⟨h, rfl, by simp [rb_put_run], by simp [rb_put_run]⟩
  | cons a t ih =>
    have hd : rt_ringbuffer_data_len rb < rb.buffer_size := by
      simp only [List.length_cons] at hl
      omega
    have hwf2 := putchar_wf rb a h hd
    have hdl2 := putchar_dlen rb a h hd
    have hm2 := putchar_model rb a h hd
    have hsz := (putchar_frame rb a).2.2.1
    have hstep : rb_put_run rb (a :: t) =
        rb_put_run (rt_ringbuffer_putchar rb a).1 t := by
      simp [rb_put_run]
    have hl2 : rt_ringbuffer_data_len (rt_ringbuffer_putchar rb a).1 +
        t.length ≤ (rt_ringbuffer_putchar rb a).1.buffer_size := by
      rw [hdl2, hsz]
      simp only [List.length_cons] at hl
      omega
    obtain ⟨w1, w2, w3, w4⟩ := ih (rt_ringbuffer_putchar rb a).1 hwf2 hl2
    rw [hstep]
    refine ⟨w1, by rw [w2, hsz], ?_, ?_⟩
    · rw [w3, hdl2]
      simp only [List.length_cons]
      omega
    · rw [w4, hm2, List.append_assoc, List.singleton_append]

/-- A run of n gets on a buffer holding at least n bytes delivers the
first n bytes of the abstract queue in order, preserving well-formedness
and the capacity and lowering the occupied count by n. -/
theorem rb_get_run_spec (n : Nat) (rb : rt_ringbuffer) (h : rbWF rb)
    (hn : n ≤ rt_ringbuffer_data_len rb) :
    rbWF (rb_get_run n rb).1 ∧
    (rb_get_run n rb).1.buffer_size = rb.buffer_size ∧
    rt_ringbuffer_data_len (rb_get_run n rb).1 =
      rt_ringbuffer_data_len rb - n ∧
    (rb_get_run n rb).2 = (rbModel rb).take n := by
  induction n generalizing rb with
  | zero =>
    exact ⟨h, rfl, by simp [rb_get_run], by simp [rb_get_run]⟩
  | succ n ih =>
    have hd : 0 < rt_ringbuffer_data_len rb := by omega
    have hret : (rt_ringbuffer_getchar rb 0).2.2 = 1 := by
      rw [getchar_ok rb 0 h hd]
    have hwf2 := getchar_wf rb 0 h hd
    have hdl2 := getchar_dlen rb 0 h hd
    have hmdl := getchar_model rb 0 h hd
    have hval := getchar_val rb 0 h hd
    have hsz := (getchar_frame rb 0).2.2.1
    have hstep : rb_get_run (n + 1) rb =
        ((rb_get_run n (rt_ringbuffer_getchar rb 0).1).1,
         (rt_ringbuffer_getchar rb 0).2.1 ::
           (rb_get_run n (rt_ringbuffer_getchar rb 0).1).2) := by
      simp only [rb_get_run]
      rw [if_pos hret]
    have hn2 : n ≤ rt_ringbuffer_data_len (rt_ringbuffer_getchar rb 0).1 := by
      rw [hdl2]
      omega
    obtain ⟨w1, w2, w3, w4⟩ := ih (rt_ringbuffer_getchar rb 0).1 hwf2 hn2
    rw [hstep]
    refine ⟨w1, by rw [w2, hsz], ?_, ?_⟩
    · rw [w3, hdl2]
      omega
    · rw [hmdl, List.take_succ_cons, w4, hval]

/-- Every single put or get call preserves well-formedness. -/
theorem rb_apply_op_wf (rb : rt_ringbuffer) (op : RbOp) (h : rbWF rb) :
    rbWF (rb_apply_op rb op) := by
  cases op with
  | put ch =>
    by_cases hd : rt_ringbuffer_data_len rb = rb.buffer_size
    · simp only [rb_apply_op, putchar_full rb ch hd]
      exact h
    · have hle := dlen_le_size rb h.2.2.2.1
      exact putchar_wf rb ch h (by omega)
  | get =>
    by_cases hd : rt_ringbuffer_data_len rb = 0
    · simp only [rb_apply_op, getchar_empty rb 0 hd]
      exact h
    · exact getchar_wf rb 0 h (by omega)

/-- Any sequence of put and get calls preserves well-formedness. -/
theorem rb_apply_ops_wf (ops : List RbOp) (rb : rt_ringbuffer) (h : rbWF rb) :
    rbWF (rb_apply_ops rb ops) := by
  induction ops generalizing rb with
  | nil => exact h
  | cons op t ih =>
    have hstep : rb_apply_ops rb (op :: t) =
        rb_apply_ops (rb_apply_op rb op) t := by
      simp [rb_apply_ops]
    rw [hstep]
    exact ih _ (rb_apply_op_wf rb op h)

/-- No sequence of operations changes the capacity. -/
theorem rb_apply_ops_size (ops : List RbOp) (rb : rt_ringbuffer) :
    (rb_apply_ops rb ops).buffer_size = rb.buffer_size := by
  induction ops generalizing rb with
  | nil => rfl
  | cons op t ih =>
    have hstep : rb_apply_ops rb (op :: t) =
        rb_apply_ops (rb_apply_op rb op) t := by
      simp [rb_apply_ops]
    rw [hstep, ih]
    cases op with
    | put ch => exact (putchar_frame rb ch).2.2.1
    | get => exact (getchar_frame rb 0).2.2.1

/-- A successful initialisation yields a well-formed empty buffer whose
capacity is at most the requested size (and hence fits the pool). -/
theorem rt_ringbuffer_init_spec (pool : List Nat) (size : Int)
    (rb0 : rt_ringbuffer) (h1 : 4 ≤ size) (h2 : size ≤ 32767)
    (h3 : size.toNat ≤ pool.length)
    (h0 : rt_ringbuffer_init pool size = some rb0) :
    rbWF rb0 ∧ rt_ringbuffer_data_len rb0 = 0 ∧ rbModel rb0 = [] ∧
    rb0.buffer_size ≤ size.toNat := by
  unfold rt_ringbuffer_init at h0
  rw [if_pos (by omega)] at h0
  injection h0 with h0
  subst h0
  simp only [rbWF, RT_ALIGN_DOWN, RT_ALIGN_SIZE]
  have hd0 : rt_ringbuffer_data_len
      { buffer_ptr := pool, read_mirror := false, read_index := 0,
        write_mirror := false, write_index := 0,
        buffer_size := size.toNat / 4 * 4 } = 0 := by
    simp [rt_ringbuffer_data_len, rt_ringbuffer_status]
  refine ⟨⟨by omega, by omega, by omega, by omega, by omega, ?_, ?_⟩,
    hd0, by simp [rbModel, hd0], by omega⟩
  · intro _
    omega
  · intro hb
    exact absurd rfl hb

/-- The final state of a put run with return values is the plain put run. -/
theorem rb_put_run_rets_fst (l : List Nat) (rb : rt_ringbuffer) :
    (rb_put_run_rets rb l).1 = rb_put_run rb l := by
  induction l generalizing rb with
  | nil => rfl
  | cons a t ih =>
    simp only [rb_put_run_rets]
    rw [ih]
    simp [rb_put_run]

/-- While the bytes fit, every put in the run reports success. -/
theorem rb_put_run_rets_ok (l : List Nat) (rb : rt_ringbuffer) (h : rbWF rb)
    (hl : rt_ringbuffer_data_len rb + l.length ≤ rb.buffer_size) :
    (rb_put_run_rets rb l).2 = List.replicate l.length 1 := by
  induction l generalizing rb with
  | nil => rfl
  | cons a t ih =>
    have hd : rt_ringbuffer_data_len rb < rb.buffer_size := by
      simp only [List.length_cons] at hl
      omega
    have hret : (rt_ringbuffer_putchar rb a).2 = 1 := by
      rw [putchar_ok rb a h hd]
    have hwf2 := putchar_wf rb a h hd
    have hdl2 := putchar_dlen rb a h hd
    have hsz := (putchar_frame rb a).2.2.1
    have hl2 : rt_ringbuffer_data_len (rt_ringbuffer_putchar rb a).1 +
        t.length ≤ (rt_ringbuffer_putchar rb a).1.buffer_size := by
      rw [hdl2, hsz]
      simp only [List.length_cons] at hl
      omega
    simp only [rb_put_run_rets, List.length_cons, List.replicate_succ]
    rw [hret, ih _ hwf2 hl2]

/-- On a full buffer every put in the run fails and the state is frozen. -/
theorem rb_put_run_rets_full (l : List Nat) (rb : rt_ringbuffer)
    (h : rt_ringbuffer_data_len rb = rb.buffer_size) :
    rb_put_run_rets rb l = (rb, List.replicate l.length 0) := by
  induction l with
  | nil => rfl
  | cons a t ih =>
    simp only [rb_put_run_rets, putchar_full rb a h, List.length_cons,
      List.replicate_succ]
    rw [ih]

/-- Splitting a put run with return values at a list append. -/
theorem rb_put_run_rets_append (l1 l2 : List Nat) (rb : rt_ringbuffer) :
    rb_put_run_rets rb (l1 ++ l2) =
      ((rb_put_run_rets (rb_put_run_rets rb l1).1 l2).1,
       (rb_put_run_rets rb l1).2 ++
         (rb_put_run_rets (rb_put_run_rets rb l1).1 l2).2) := by
  induction l1 generalizing rb with
  | nil => simp [rb_put_run_rets]
  | cons a t ih =>
    simp only [List.cons_append, rb_put_run_rets, List.append_eq]
    rw [ih]

/-- The drain loop is a left fold of put over the pending bytes, in
arrival order. -/
theorem uart_rx_drain_foldl (pending : List Nat) (rb : rt_ringbuffer) :
    uart_rx_drain rb pending =
      pending.foldl (fun b dr => (rt_ringbuffer_putchar b (dr % 256)).1) rb := by
  induction pending generalizing rb with
  | nil => rfl
  | cons a t ih => simp [uart_rx_drain, ih]

/-- The buffer state rt_hw_uart_init produces: rt_ringbuffer_init on the
zeroed 16-byte uart_rx_buf with UART_RX_BUF_LEN = 16. -/
def uart_rxcb0 : rt_ringbuffer :=
  { buffer_ptr := List.replicate 16 0, read_mirror := false, read_index := 0,
    write_mirror := false, write_index := 0, buffer_size := 16 }

/-- A capacity-4 state holding two bytes (7 at index 1, 6 at index 2). -/
def rb_demo : rt_ringbuffer :=
  { buffer_ptr := [9, 7, 6, 8], read_mirror := false, read_index := 1,
    write_mirror := false, write_index := 3, buffer_size := 4 }

/-- A capacity-4 empty state whose coincident indices sit away from 0. -/
def rb_demo_empty : rt_ringbuffer :=
  { buffer_ptr := [0, 0, 0, 0], read_mirror := true, read_index := 2,
    write_mirror := true, write_index := 2, buffer_size := 4 }

/-- A freshly initialised capacity-4 buffer. -/
def rb4 : rt_ringbuffer :=
  { buffer_ptr := List.replicate 4 0, read_mirror := false, read_index := 0,
    write_mirror := false, write_index := 0, buffer_size := 4 }

/-- Eight puts and eight gets on capacity 4: the write index walks past
the array end twice (after the fourth and the eighth put). -/
def wrap_twice_ops : List RbOp :=
  [RbOp.put 1, RbOp.put 2, RbOp.put 3, RbOp.put 4, RbOp.get, RbOp.get,
   RbOp.get, RbOp.get, RbOp.put 5, RbOp.put 6, RbOp.put 7, RbOp.put 8,
   RbOp.get, RbOp.get, RbOp.get, RbOp.get]

/-- C6: with the receive-ready condition true, USART1_IRQHandler performs
one rt_ringbuffer_putchar per pending hardware byte in arrival order
(ignoring any failure, so full-buffer bytes are silently dropped) and
releases the semaphore exactly once, whatever the number of pending
bytes, including zero. -/
theorem C6_irq_drains_and_wakes_once (rb : rt_ringbuffer) (sem : Nat)
    (pending : List Nat) :
    USART1_IRQHandler rb sem true pending =
      (pending.foldl (fun b dr => (rt_ringbuffer_putchar b (dr % 256)).1) rb,
       sem + 1) := by
  simp [USART1_IRQHandler, uart_rx_drain_foldl]

/-- C7 counterexample: rt_hw_console_getchar has no timeout path at all.
On the buffer exactly as rt_hw_uart_init creates it (capacity 16, empty)
with the semaphore count 0 and no producer activity, the call has not
returned after a million loop iterations - there is no timeout indication
to return. -/
theorem C7_counterexample :
    rt_ringbuffer_init (List.replicate 16 0) 16 = some uart_rxcb0 ∧
    rt_ringbuffer_data_len uart_rxcb0 = 0 ∧
    rt_hw_console_getchar_loop 1000000 uart_rxcb0 0 = none := by
  refine ⟨by decide, by decide, by decide⟩

/-- C7 (amended): rt_hw_console_getchar takes no timeout; it waits on the
semaphore with RT_WAITING_FOREVER and discards the take result.  On an
empty buffer with the semaphore count 0 and no producer activity it never
returns, for any number of observed loop iterations. -/
theorem C7_blocks_forever (fuel : Nat) (rb : rt_ringbuffer)
    (h : rt_ringbuffer_data_len rb = 0) :
    rt_hw_console_getchar_loop fuel rb 0 = none := by
  cases fuel with
  | zero => rfl
  | succ n =>
    simp [rt_hw_console_getchar_loop, getchar_empty rb 0 h]

theorem C7_witness : rt_hw_console_getchar_loop 5 rb_demo_empty 0 = none :=
  C7_blocks_forever 5 rb_demo_empty (by decide)

/-- C8 counterexample: init does not store the caller-supplied length
verbatim.  With a pool of 5 bytes and requested capacity 5, the stored
buffer_size is RT_ALIGN_DOWN(5, 4) = 4, not 5. -/
theorem C8_counterexample :
    rt_ringbuffer_init (List.replicate 5 0) 5 =
      some { buffer_ptr := List.replicate 5 0, read_mirror := false,
             read_index := 0, write_mirror := false, write_index := 0,
             buffer_size := 4 } ∧ (4 : Nat) ≠ 5 := by
  decide

/-- C8 (amended): init with capacity <= 0 fails (the RT_ASSERT halts);
init with capacity > 0 zeroes both indices and both mirrors, stores the
caller-supplied pool, and stores as buffer_size the caller-supplied
length rounded down to a multiple of RT_ALIGN_SIZE = 4 - equal to the
supplied length exactly when that length is a multiple of 4, as in this
program's only call (size 16). -/
theorem C8_init_contract (pool : List Nat) (size : Int) :
    (size ≤ 0 → rt_ringbuffer_init pool size = none) ∧
    (∀ rb1 : rt_ringbuffer, rt_ringbuffer_init pool size = some rb1 →
      0 < size ∧ rb1.read_index = 0 ∧ rb1.write_index = 0 ∧
      rb1.read_mirror = false ∧ rb1.write_mirror = false ∧
      rb1.buffer_ptr = pool ∧
      rb1.buffer_size = RT_ALIGN_DOWN size.toNat RT_ALIGN_SIZE ∧
      ((RT_ALIGN_SIZE : Int) ∣ size → (rb1.buffer_size : Int) = size)) := by
  constructor
  · intro hle
    unfold rt_ringbuffer_init
    rw [if_neg (by omega)]
  · intro rb1 hsome
    unfold rt_ringbuffer_init at hsome
    by_cases hpos : (0 : Int) < size
    · rw [if_pos hpos] at hsome
      injection hsome with hsome
      subst hsome
      refine ⟨hpos, rfl, rfl, rfl, rfl, rfl, rfl, ?_⟩
      intro hdvd
      simp only [RT_ALIGN_DOWN, RT_ALIGN_SIZE] at hdvd ⊢
      omega
    · rw [if_neg hpos] at hsome
      exact absurd hsome (by simp)

theorem C8_witness :
    rt_ringbuffer_init (List.replicate 16 0) (-3) = none ∧
    uart_rxcb0.buffer_size = RT_ALIGN_DOWN (16 : Int).toNat RT_ALIGN_SIZE :=
  ⟨(C8_init_contract (List.replicate 16 0) (-3)).1 (by decide),
   ((C8_init_contract (List.replicate 16 0) 16).2 uart_rxcb0
       (by decide)).2.2.2.2.2.2.1⟩

/-- C9: on every buffer state, put leaves the read index, the read
mirror, the capacity, the storage length and every storage cell other
than the one at the old write index unchanged, and get leaves the write
index, the write mirror, the capacity and the entire storage unchanged -
the producer and consumer sides own disjoint fields. -/
theorem C9_frame (rb : rt_ringbuffer) (ch ch0 i : Nat)
    (hi : i ≠ rb.write_index) :
    (rt_ringbuffer_putchar rb ch).1.read_index = rb.read_index ∧
    (rt_ringbuffer_putchar rb ch).1.read_mirror = rb.read_mirror ∧
    (rt_ringbuffer_putchar rb ch).1.buffer_size = rb.buffer_size ∧
    (rt_ringbuffer_putchar rb ch).1.buffer_ptr.length =
      rb.buffer_ptr.length ∧
    (rt_ringbuffer_putchar rb ch).1.buffer_ptr.getD i 0 =
      rb.buffer_ptr.getD i 0 ∧
    (rt_ringbuffer_getchar rb ch0).1.write_index = rb.write_index ∧
    (rt_ringbuffer_getchar rb ch0).1.write_mirror = rb.write_mirror ∧
    (rt_ringbuffer_getchar rb ch0).1.buffer_size = rb.buffer_size ∧
    (rt_ringbuffer_getchar rb ch0).1.buffer_ptr = rb.buffer_ptr := by
  obtain ⟨p1, p2, p3, p4⟩ := putchar_frame rb ch
  obtain ⟨g1, g2, g3, g4⟩ := getchar_frame rb ch0
  exact ⟨p1, p2, p3, p4, putchar_cells rb ch i hi, g1, g2, g3, g4⟩

theorem C9_witness :
    (rt_ringbuffer_putchar rb_demo 5).1.read_index = rb_demo.read_index ∧
    (rt_ringbuffer_getchar rb_demo 0).1.write_mirror = rb_demo.write_mirror :=
  ⟨(C9_frame rb_demo 5 0 0 (by decide)).1,
   (C9_frame rb_demo 5 0 0 (by decide)).2.2.2.2.2.2.1⟩

/-- C10: on every buffer state that is empty (coincident indices, equal
mirrors), get returns the no-data result and changes nothing: every
field, the storage and the caller's out byte are exactly as before. -/
theorem C10_get_empty_noop (rb : rt_ringbuffer) (ch : Nat)
    (h1 : rb.read_index = rb.write_index)
    (h2 : rb.read_mirror = rb.write_mirror) :
    rt_ringbuffer_getchar rb ch = (rb, ch, 0) := by
  apply getchar_empty
  simp [rt_ringbuffer_data_len, rt_ringbuffer_status, h1, h2]

theorem C10_witness :
    rt_ringbuffer_getchar rb_demo_empty 7 = (rb_demo_empty, 7, 0) :=
  C10_get_empty_noop rb_demo_empty 7 (by decide) (by decide)

/-- C2: on every well-formed buffer state, put on a full buffer (occupied
count equal to the capacity) returns 0 with the state - every field and
the storage - completely unchanged; otherwise it returns 1, writes the
byte at the old write index, and advances the write index by one, with
wrap to 0 and write-mirror flip exactly when the new index would equal
the capacity. -/
theorem C2_putchar_contract (rb : rt_ringbuffer) (ch : Nat) (h : rbWF rb) :
    (rt_ringbuffer_data_len rb = rb.buffer_size →
      rt_ringbuffer_putchar rb ch = (rb, 0)) ∧
    (rt_ringbuffer_data_len rb ≠ rb.buffer_size →
      (rt_ringbuffer_putchar rb ch).2 = 1 ∧
      (rt_ringbuffer_putchar rb ch).1.buffer_ptr =
        rb.buffer_ptr.set rb.write_index ch ∧
      (rb.write_index = rb.buffer_size - 1 →
        (rt_ringbuffer_putchar rb ch).1.write_index = 0 ∧
        (rt_ringbuffer_putchar rb ch).1.write_mirror = !rb.write_mirror) ∧
      (rb.write_index ≠ rb.buffer_size - 1 →
        (rt_ringbuffer_putchar rb ch).1.write_index = rb.write_index + 1 ∧
        (rt_ringbuffer_putchar rb ch).1.write_mirror = rb.write_mirror)) := by
  constructor
  · exact putchar_full rb ch
  · intro hne
    have hle := dlen_le_size rb h.2.2.2.1
    have hcf := putchar_ok rb ch h (by omega)
    refine ⟨by rw [hcf], by rw [hcf], ?_, ?_⟩
    · intro hw
      rw [hcf]
      simp [hw]
    · intro hw
      rw [hcf]
      simp [hw]

theorem C2_witness :
    (rt_ringbuffer_putchar rb_demo 5).2 = 1 ∧
    (rt_ringbuffer_putchar rb_demo 5).1.buffer_ptr =
      rb_demo.buffer_ptr.set rb_demo.write_index 5 :=
  ⟨((C2_putchar_contract rb_demo 5 (by decide)).2 (by decide)).1,
   ((C2_putchar_contract rb_demo 5 (by decide)).2 (by decide)).2.1⟩

/-- C3: on every well-formed buffer state, get on an empty buffer returns
the explicit no-data result 0 (with nothing changed); otherwise it
returns 1, delivers the byte stored at the read index, and advances the
read index by one, with wrap to 0 and read-mirror flip exactly when the
new index would equal the capacity. -/
theorem C3_getchar_contract (rb : rt_ringbuffer) (ch : Nat) (h : rbWF rb) :
    (rt_ringbuffer_data_len rb = 0 →
      rt_ringbuffer_getchar rb ch = (rb, ch, 0)) ∧
    (rt_ringbuffer_data_len rb ≠ 0 →
      (rt_ringbuffer_getchar rb ch).2.2 = 1 ∧
      (rt_ringbuffer_getchar rb ch).2.1 =
        rb.buffer_ptr.getD rb.read_index 0 ∧
      (rb.read_index = rb.buffer_size - 1 →
        (rt_ringbuffer_getchar rb ch).1.read_index = 0 ∧
        (rt_ringbuffer_getchar rb ch).1.read_mirror = !rb.read_mirror) ∧
      (rb.read_index ≠ rb.buffer_size - 1 →
        (rt_ringbuffer_getchar rb ch).1.read_index = rb.read_index + 1 ∧
        (rt_ringbuffer_getchar rb ch).1.read_mirror = rb.read_mirror)) := by
  constructor
  · exact getchar_empty rb ch
  · intro hne
    have hcf := getchar_ok rb ch h (by omega)
    refine ⟨by rw [hcf], by rw [hcf], ?_, ?_⟩
    · intro hr
      rw [hcf]
      simp [hr]
    · intro hr
      rw [hcf]
      simp [hr]

theorem C3_witness :
    (rt_ringbuffer_getchar rb_demo 0).2.2 = 1 ∧
    (rt_ringbuffer_getchar rb_demo 0).2.1 =
      rb_demo.buffer_ptr.getD rb_demo.read_index 0 :=
  ⟨((C3_getchar_contract rb_demo 0 (by decide)).2 (by decide)).1,
   ((C3_getchar_contract rb_demo 0 (by decide)).2 (by decide)).2.1⟩

/-- C1: starting from a freshly initialised buffer, writing any byte
sequence B with length at most the capacity through successive puts and
then reading with successive gets returns exactly B in order (first
conjunct, with the occupied count equal to the number of bytes written);
and the same FIFO ordering and occupied-count accounting hold from any
state reached by any operation sequence - in particular ones whose write
index has already wrapped past the array end twice (second conjunct, the
mirror-bit regression). -/
theorem C1_fifo_wrap (pool : List Nat) (size : Int) (rb0 : rt_ringbuffer)
    (B : List Nat) (h1 : 4 ≤ size) (h2 : size ≤ 32767)
    (h3 : size.toNat ≤ pool.length)
    (h0 : rt_ringbuffer_init pool size = some rb0) :
    (B.length ≤ rb0.buffer_size →
      rt_ringbuffer_data_len (rb_put_run rb0 B) = B.length ∧
      (rb_get_run B.length (rb_put_run rb0 B)).2 = B) ∧
    (∀ ops : List RbOp,
      rt_ringbuffer_data_len (rb_apply_ops rb0 ops) + B.length ≤
        rb0.buffer_size →
      rt_ringbuffer_data_len (rb_put_run (rb_apply_ops rb0 ops) B) =
        rt_ringbuffer_data_len (rb_apply_ops rb0 ops) + B.length ∧
      (rb_get_run
          (rt_ringbuffer_data_len (rb_apply_ops rb0 ops) + B.length)
          (rb_put_run (rb_apply_ops rb0 ops) B)).2 =
        rbModel (rb_apply_ops rb0 ops) ++ B) := by
  obtain ⟨hwf0, hd0, hm0, hle⟩ :=
    rt_ringbuffer_init_spec pool size rb0 h1 h2 h3 h0
  have main : ∀ ops : List RbOp,
      rt_ringbuffer_data_len (rb_apply_ops rb0 ops) + B.length ≤
        rb0.buffer_size →
      rt_ringbuffer_data_len (rb_put_run (rb_apply_ops rb0 ops) B) =
        rt_ringbuffer_data_len (rb_apply_ops rb0 ops) + B.length ∧
      (rb_get_run
          (rt_ringbuffer_data_len (rb_apply_ops rb0 ops) + B.length)
          (rb_put_run (rb_apply_ops rb0 ops) B)).2 =
        rbModel (rb_apply_ops rb0 ops) ++ B := by
    intro ops hops
    have hwf := rb_apply_ops_wf ops rb0 hwf0
    have hsz := rb_apply_ops_size ops rb0
    obtain ⟨p1, p2, p3, p4⟩ := rb_put_run_spec B (rb_apply_ops rb0 ops) hwf
      (by rw [hsz]; exact hops)
    refine ⟨p3, ?_⟩
    obtain ⟨g1, g2, g3, g4⟩ := rb_get_run_spec
      (rt_ringbuffer_data_len (rb_apply_ops rb0 ops) + B.length)
      (rb_put_run (rb_apply_ops rb0 ops) B) p1 (le_of_eq p3.symm)
    rw [g4, p4]
    have hlen : (rbModel (rb_apply_ops rb0 ops) ++ B).length =
        rt_ringbuffer_data_len (rb_apply_ops rb0 ops) + B.length := by
      rw [List.length_append, rbModel_length]
    rw [← hlen, List.take_length]
  refine ⟨?_, main⟩
  intro hB
  have h := main [] (by simpa [rb_apply_ops, hd0] using hB)
  simpa [rb_apply_ops, hd0, hm0] using h

theorem C1_witness :
    rt_ringbuffer_data_len
        (rb_put_run (rb_apply_ops rb4 wrap_twice_ops) [10, 11, 12]) =
      rt_ringbuffer_data_len (rb_apply_ops rb4 wrap_twice_ops) +
        [10, 11, 12].length ∧
    (rb_get_run
        (rt_ringbuffer_data_len (rb_apply_ops rb4 wrap_twice_ops) +
          [10, 11, 12].length)
        (rb_put_run (rb_apply_ops rb4 wrap_twice_ops) [10, 11, 12])).2 =
      rbModel (rb_apply_ops rb4 wrap_twice_ops) ++ [10, 11, 12] :=
  (C1_fifo_wrap (List.replicate 4 0) 4 rb4 [10, 11, 12] (by decide)
      (by decide) (by decide) (by decide)).2 wrap_twice_ops (by decide)

/-- C4: every state reachable from a freshly initialised buffer by any
sequence of put and get calls keeps both indices inside [0, capacity)
and the occupied count within [0, capacity] (as a Nat it cannot be
negative), and each single operation preserves these bounds from any
well-formed state. -/
theorem C4_bounds_invariant (pool : List Nat) (size : Int)
    (rb0 : rt_ringbuffer) (ops : List RbOp) (h1 : 4 ≤ size)
    (h2 : size ≤ 32767) (h3 : size.toNat ≤ pool.length)
    (h0 : rt_ringbuffer_init pool size = some rb0) :
    ((rb_apply_ops rb0 ops).read_index <
        (rb_apply_ops rb0 ops).buffer_size ∧
     (rb_apply_ops rb0 ops).write_index <
        (rb_apply_ops rb0 ops).buffer_size ∧
     rt_ringbuffer_data_len (rb_apply_ops rb0 ops) ≤
        (rb_apply_ops rb0 ops).buffer_size) ∧
    (∀ rb : rt_ringbuffer, ∀ op : RbOp, rbWF rb →
      (rb_apply_op rb op).read_index < (rb_apply_op rb op).buffer_size ∧
      (rb_apply_op rb op).write_index < (rb_apply_op rb op).buffer_size ∧
      rt_ringbuffer_data_len (rb_apply_op rb op) ≤
        (rb_apply_op rb op).buffer_size) := by
  have hpres : ∀ rb : rt_ringbuffer, ∀ op : RbOp, rbWF rb →
      (rb_apply_op rb op).read_index < (rb_apply_op rb op).buffer_size ∧
      (rb_apply_op rb op).write_index < (rb_apply_op rb op).buffer_size ∧
      rt_ringbuffer_data_len (rb_apply_op rb op) ≤
        (rb_apply_op rb op).buffer_size := by
    intro rb op hwf
    have hwf2 := rb_apply_op_wf rb op hwf
    exact ⟨hwf2.2.2.1, hwf2.2.2.2.1, dlen_le_size _ hwf2.2.2.2.1⟩
  obtain ⟨hwf0, _, _, _⟩ :=
    rt_ringbuffer_init_spec pool size rb0 h1 h2 h3 h0
  have hwf := rb_apply_ops_wf ops rb0 hwf0
  exact ⟨⟨hwf.2.2.1, hwf.2.2.2.1, dlen_le_size _ hwf.2.2.2.1⟩, hpres⟩

theorem C4_witness :
    (rb_apply_ops rb4 wrap_twice_ops).read_index <
      (rb_apply_ops rb4 wrap_twice_ops).buffer_size ∧
    rt_ringbuffer_data_len (rb_apply_ops rb4 wrap_twice_ops) ≤
      (rb_apply_ops rb4 wrap_twice_ops).buffer_size :=
  ⟨(C4_bounds_invariant (List.replicate 4 0) 4 rb4 wrap_twice_ops
      (by decide) (by decide) (by decide) (by decide)).1.1,
   (C4_bounds_invariant (List.replicate 4 0) 4 rb4 wrap_twice_ops
      (by decide) (by decide) (by decide) (by decide)).1.2.2⟩

/-- C5: writing capacity + k bytes (k > 0) into a freshly initialised
buffer without reading makes exactly the first capacity puts succeed and
the last k fail, leaves the occupied count at the capacity, and the
first capacity bytes written are then read back in order - the
drop-newest overflow policy. -/
theorem C5_overflow_policy (pool : List Nat) (size : Int)
    (rb0 : rt_ringbuffer) (B : List Nat) (k : Nat) (h1 : 4 ≤ size)
    (h2 : size ≤ 32767) (h3 : size.toNat ≤ pool.length)
    (h0 : rt_ringbuffer_init pool size = some rb0) (hk : 0 < k)
    (hB : B.length = rb0.buffer_size + k) :
    (rb_put_run_rets rb0 B).2 =
      List.replicate rb0.buffer_size 1 ++ List.replicate k 0 ∧
    rt_ringbuffer_data_len (rb_put_run_rets rb0 B).1 = rb0.buffer_size ∧
    (rb_get_run rb0.buffer_size (rb_put_run_rets rb0 B).1).2 =
      B.take rb0.buffer_size := by
  obtain ⟨hwf0, hd0, hm0, hle⟩ :=
    rt_ringbuffer_init_spec pool size rb0 h1 h2 h3 h0
  have hlen1 : (B.take rb0.buffer_size).length = rb0.buffer_size := by
    rw [List.length_take]
    omega
  have hlen2 : (B.drop rb0.buffer_size).length = k := by
    rw [List.length_drop]
    omega
  have hsplit : B = B.take rb0.buffer_size ++ B.drop rb0.buffer_size :=
    (List.take_append_drop rb0.buffer_size B).symm
  have hre : rb_put_run_rets rb0 B =
      ((rb_put_run_rets
          (rb_put_run_rets rb0 (B.take rb0.buffer_size)).1
          (B.drop rb0.buffer_size)).1,
       (rb_put_run_rets rb0 (B.take rb0.buffer_size)).2 ++
         (rb_put_run_rets
           (rb_put_run_rets rb0 (B.take rb0.buffer_size)).1
           (B.drop rb0.buffer_size)).2) := by
    conv_lhs => rw [hsplit]
    exact rb_put_run_rets_append _ _ _
  have hfit : rt_ringbuffer_data_len rb0 +
      (B.take rb0.buffer_size).length ≤ rb0.buffer_size := by
    rw [hd0, hlen1]
    omega
  obtain ⟨q1, q2, q3, q4⟩ :=
    rb_put_run_spec (B.take rb0.buffer_size) rb0 hwf0 hfit
  have hfst1 := rb_put_run_rets_fst (B.take rb0.buffer_size) rb0
  have hful : rt_ringbuffer_data_len
      (rb_put_run rb0 (B.take rb0.buffer_size)) =
      (rb_put_run rb0 (B.take rb0.buffer_size)).buffer_size := by
    rw [q3, q2, hd0, hlen1]
    omega
  have hfull_run := rb_put_run_rets_full (B.drop rb0.buffer_size)
    (rb_put_run rb0 (B.take rb0.buffer_size)) hful
  have hrets1 := rb_put_run_rets_ok (B.take rb0.buffer_size) rb0 hwf0 hfit
  rw [hre, hfst1, hfull_run]
  refine ⟨?_, ?_, ?_⟩
  · show (rb_put_run_rets rb0 (B.take rb0.buffer_size)).2 ++
        List.replicate (B.drop rb0.buffer_size).length 0 =
      List.replicate rb0.buffer_size 1 ++ List.replicate k 0
    rw [hrets1, hlen1, hlen2]
  · show rt_ringbuffer_data_len (rb_put_run rb0 (B.take rb0.buffer_size)) =
      rb0.buffer_size
    rw [hful, q2]
  · show (rb_get_run rb0.buffer_size
        (rb_put_run rb0 (B.take rb0.buffer_size))).2 = B.take rb0.buffer_size
    obtain ⟨g1, g2, g3, g4⟩ := rb_get_run_spec rb0.buffer_size
      (rb_put_run rb0 (B.take rb0.buffer_size)) q1
      (by rw [q3, hd0, hlen1]; omega)
    rw [g4, q4, hm0]
    simp [List.take_take]

theorem C5_witness :
    (rb_put_run_rets rb4 [1, 2, 3, 4, 5, 6]).2 =
      List.replicate 4 1 ++ List.replicate 2 0 ∧
    (rb_get_run 4 (rb_put_run_rets rb4 [1, 2, 3, 4, 5, 6]).1).2 =
      [1, 2, 3, 4, 5, 6].take 4 :=
  ⟨(C5_overflow_policy (List.replicate 4 0) 4 rb4 [1, 2, 3, 4, 5, 6] 2
      (by decide) (by decide) (by decide) (by decide) (by decide)
      (by decide)).1,
   (C5_overflow_policy (List.replicate 4 0) 4 rb4 [1, 2, 3, 4, 5, 6] 2
      (by decide) (by decide) (by decide) (by decide) (by decide)
      (by decide)).2.2⟩

end Console
